import Mathlib

/-!
# Scan coverage model of `cmd/scan/scan.go`

A shallow embedding of the coverage engine of the block scanner: the address
records with their three scan watermarks, the deposit matcher (`findTxs`,
`existTx`), the watermark update (`updateAddressInfo`), the four block
selection functions (`findMin`, `findMax`, `findShort`, `findFar`, with
`findMid`) and the range loop of `run`.

Modelling conventions.

* Go slices are lists. A `for _, x := range xs` loop that accumulates a value
  is a left fold over the list, in list order.
* `int64` is the type `Int64` of the integers from `-2^63` to `2^63 - 1`;
  `+` and `-` wrap around modulo `2^64` as in Go (`wrap64`). The counter of the
  range loop is a Go `int`, taken as 64 bits wide.
* A function that indexes `addrs[0]` panics on the empty slice; it returns
  `none` there.
* The ledger reader (`scanBlock` over an RPC client) is a function from block
  height to `Except ε (List Deposit)`.
* The range loop need not end (its counter wraps), so it runs on fuel and
  returns `none` when the fuel is used up.
-/

namespace Scan

/-! ## `int64` -/

/-- The representative of `x` modulo `2^64` in the range of `int64`. -/
def wrap64 (x : Int) : Int :=
  (x + 9223372036854775808) % 18446744073709551616 - 9223372036854775808

/-- The values of Go's `int64`. -/
structure Int64 where
  val : Int
  inRange : -9223372036854775808 ≤ val ∧ val ≤ 9223372036854775807

/-- The `int64` that an integer wraps to. -/
def Int64.ofInt (x : Int) : Int64 :=
  ⟨wrap64 x, by unfold wrap64; omega⟩

/-- The least `int64`, `-2^63`. -/
def Int64.minVal : Int64 := ⟨-9223372036854775808, by decide⟩

/-- The greatest `int64`, `2^63 - 1`. -/
def Int64.maxVal : Int64 := ⟨9223372036854775807, by decide⟩

instance : DecidableEq Int64 := fun a b =>
  decidable_of_iff (a.val = b.val) (by cases a; cases b; simp)

instance (n : Nat) : OfNat Int64 n := ⟨Int64.ofInt n⟩

instance : Add Int64 := ⟨fun a b => Int64.ofInt (a.val + b.val)⟩

instance : Sub Int64 := ⟨fun a b => Int64.ofInt (a.val - b.val)⟩

instance : LT Int64 := ⟨fun a b => a.val < b.val⟩

instance : LE Int64 := ⟨fun a b => a.val ≤ b.val⟩

instance (a b : Int64) : Decidable (a < b) := inferInstanceAs (Decidable (a.val < b.val))

instance (a b : Int64) : Decidable (a ≤ b) := inferInstanceAs (Decidable (a.val ≤ b.val))

/-! ## Data model -/

/-- Tx records information about a scanned transaction. -/
structure Tx where
  TxHash : String
  Address : String
  BlockHash : String
  ParentHash : String
  BlockHeight : Int64
  SatoshiAmount : Int64
  BitcoinAmount : String
  deriving DecidableEq

/-- Address records information about a scanned address. -/
structure Address where
  Addr : String
  MinScanBlock : Int64
  MidScanBlock : Int64
  MaxScanBlock : Int64
  Txs : List Tx
  deriving DecidableEq

/-- Deposit represents a single address's transaction. -/
structure Deposit where
  Addr : String
  Tx : Tx
  deriving DecidableEq

/-- The record `newAddr` that `addBTCAddress` builds for a new address:
all three watermarks 0 and no transactions. -/
def newAddr (addr : String) : Address :=
  { Addr := addr, MinScanBlock := 0, MidScanBlock := 0, MaxScanBlock := 0, Txs := [] }

/-! ## Deposit matcher -/

/-- `existTx`: whether some stored transaction of `addr` equals `tx`
(struct equality, field by field). -/
def existTx (addr : Address) (tx : Tx) : Bool :=
  addr.Txs.any (fun t => decide (t = tx))

/-- `findTxs`: the transactions of the deposits of `deps`, in order, whose
address is `addr.Addr` and which are not stored in `addr.Txs`. -/
def findTxs (addr : Address) (deps : List Deposit) : List Tx :=
  deps.foldl
    (fun txs dep =>
      if addr.Addr == dep.Addr && !existTx addr dep.Tx then txs ++ [dep.Tx] else txs)
    []

/-- `existAddress`: whether the wallet holds a record with the address of `a`. -/
def existAddress (a : Address) (walletAddresses : List Address) : Bool :=
  walletAddresses.any (fun addr => a.Addr == addr.Addr)

/-! ## Watermark update -/

/-- The four cases of the `switch` of `updateAddressInfo`, in source order. -/
inductive Rule where
  | bootstrap
  | lowEdge
  | highEdge
  | collapsed
  deriving DecidableEq

/-- The guard of a case, as written in the source. -/
def Rule.guard (r : Rule) (addr : Address) (blockID : Int64) : Bool :=
  match r with
  | .bootstrap => addr.MaxScanBlock == 0 && decide (blockID > 1)
  | .lowEdge =>
      decide (addr.MinScanBlock < addr.MaxScanBlock) && addr.MinScanBlock == blockID - 1
  | .highEdge =>
      decide (addr.MaxScanBlock > addr.MinScanBlock) && addr.MaxScanBlock == blockID - 1
  | .collapsed =>
      addr.MinScanBlock == addr.MidScanBlock && addr.MinScanBlock == addr.MaxScanBlock
        && addr.MaxScanBlock == blockID - 1

/-- The body of a case: every case appends `findTxs addr deps` to the stored
transactions and then moves the watermarks of its case. -/
def Rule.apply (r : Rule) (addr : Address) (deps : List Deposit) (blockID : Int64) : Address :=
  match r with
  | .bootstrap =>
      { addr with
        Txs := addr.Txs ++ findTxs addr deps
        MaxScanBlock := blockID
        MidScanBlock := blockID }
  | .lowEdge =>
      { addr with
        Txs := addr.Txs ++ findTxs addr deps
        MinScanBlock := blockID
        MidScanBlock := if blockID > addr.MidScanBlock then blockID else addr.MidScanBlock }
  | .highEdge =>
      { addr with
        Txs := addr.Txs ++ findTxs addr deps
        MaxScanBlock := blockID }
  | .collapsed =>
      { addr with
        Txs := addr.Txs ++ findTxs addr deps
        MaxScanBlock := blockID
        MidScanBlock := blockID
        MinScanBlock := blockID }

/-- A `switch` that tests the cases in the given order: the first case whose
guard holds runs, and no case runs when none holds. -/
def switchIn (order : List Rule) (addr : Address) (deps : List Deposit) (blockID : Int64) :
    Address :=
  match order.find? (fun r => r.guard addr blockID) with
  | some r => r.apply addr deps blockID
  | none => addr

/-- One iteration of the loop of `updateAddressInfo`: the `switch` on the
record `addr`, cases tested in source order. -/
def updateAddress (addr : Address) (deps : List Deposit) (blockID : Int64) : Address :=
  if addr.MaxScanBlock == 0 && decide (blockID > 1) then
    { addr with
      Txs := addr.Txs ++ findTxs addr deps
      MaxScanBlock := blockID
      MidScanBlock := blockID }
  else if decide (addr.MinScanBlock < addr.MaxScanBlock)
      && addr.MinScanBlock == blockID - 1 then
    { addr with
      Txs := addr.Txs ++ findTxs addr deps
      MinScanBlock := blockID
      MidScanBlock := if blockID > addr.MidScanBlock then blockID else addr.MidScanBlock }
  else if decide (addr.MaxScanBlock > addr.MinScanBlock)
      && addr.MaxScanBlock == blockID - 1 then
    { addr with
      Txs := addr.Txs ++ findTxs addr deps
      MaxScanBlock := blockID }
  else if addr.MinScanBlock == addr.MidScanBlock && addr.MinScanBlock == addr.MaxScanBlock
      && addr.MaxScanBlock == blockID - 1 then
    { addr with
      Txs := addr.Txs ++ findTxs addr deps
      MaxScanBlock := blockID
      MidScanBlock := blockID
      MinScanBlock := blockID }
  else addr

/-- `updateAddressInfo`: the loop visits every index once, reads the record
there and writes only that index, so the result is the list of the updated
records. -/
def updateAddressInfo (addrs : List Address) (deps : List Deposit) (blockID : Int64) :
    List Address :=
  addrs.map (fun addr => updateAddress addr deps blockID)

/-- A finite sequence of `updateAddressInfo` steps, each with its deposit batch
and block height, applied from left to right. -/
def runSteps (addrs : List Address) (steps : List (List Deposit × Int64)) : List Address :=
  steps.foldl (fun s st => updateAddressInfo s st.1 st.2) addrs

/-- A fresh record: the three watermarks are 0. -/
def isFresh (a : Address) : Prop :=
  a.MinScanBlock = 0 ∧ a.MidScanBlock = 0 ∧ a.MaxScanBlock = 0

/-- A record is reachable when it occurs in the result of a finite sequence of
`updateAddressInfo` steps on a list of fresh records. -/
def Reachable (a : Address) : Prop :=
  ∃ (init : List Address) (steps : List (List Deposit × Int64)),
    (∀ x ∈ init, isFresh x) ∧ a ∈ runSteps init steps

/-! ## Block selection -/

/-- `findMin`: one more than the least `MinScanBlock`. -/
def findMin : List Address → Option Int64
  | [] => none
  | a0 :: rest =>
      some ((a0 :: rest).foldl
        (fun min a => if a.MinScanBlock < min then a.MinScanBlock else min)
        a0.MinScanBlock + 1)

/-- `findMax`: one more than the greatest `MaxScanBlock`. -/
def findMax : List Address → Option Int64
  | [] => none
  | a0 :: rest =>
      some ((a0 :: rest).foldl
        (fun max a => if a.MaxScanBlock > max then a.MaxScanBlock else max)
        a0.MaxScanBlock + 1)

/-- `findMid`: one more than the greatest `MidScanBlock`. -/
def findMid : List Address → Option Int64
  | [] => none
  | a0 :: rest =>
      some ((a0 :: rest).foldl
        (fun mid a => if a.MidScanBlock > mid then a.MidScanBlock else mid)
        a0.MidScanBlock + 1)

/-- The first loop of `findShort`: `(dif, short)` after it, starting from
`(0, addrs[0].MinScanBlock)`; the loop stops at the first record with
`MidScanBlock - MinScanBlock > 0`. -/
def findShortFirst (short0 : Int64) : List Address → Int64 × Int64
  | [] => (0, short0)
  | a :: rest =>
      if a.MidScanBlock - a.MinScanBlock > 0 then
        (a.MidScanBlock - a.MinScanBlock, a.MinScanBlock)
      else findShortFirst short0 rest

/-- One iteration of the second loop of `findShort` on the state `(dif, short)`. -/
def findShortStep (st : Int64 × Int64) (a : Address) : Int64 × Int64 :=
  if decide (a.MidScanBlock - a.MinScanBlock < st.1)
      && a.MidScanBlock - a.MinScanBlock != 0 then
    (a.MidScanBlock - a.MinScanBlock, a.MinScanBlock)
  else st

/-- `findShort`. -/
def findShort : List Address → Option Int64
  | [] => none
  | a0 :: rest =>
      some (((a0 :: rest).foldl findShortStep
        (findShortFirst a0.MinScanBlock (a0 :: rest))).2 + 1)

/-- One iteration of the loop of `findFar` on the state `(dif, far)`. -/
def findFarStep (min mid : Int64) (st : Int64 × Int64) (a : Address) : Int64 × Int64 :=
  if decide (a.MinScanBlock - min > st.1) && decide (a.MinScanBlock < mid) then
    (a.MinScanBlock - min, a.MinScanBlock)
  else st

/-- `findFar`: `min` and `mid` are the results of `findMin` and `findMid`; the
loop starts from `(dif, far) = (0, min)` and the function returns `far`. -/
def findFar (addrs : List Address) : Option Int64 :=
  match findMin addrs, findMid addrs with
  | some min, some mid => some ((addrs.foldl (findFarStep min mid) (0, min)).2)
  | _, _ => none

/-! ## Range scan -/

/-- The state of the range loop of `run`: the address list in memory and the
block heights requested from the ledger reader so far, oldest first. -/
structure LoopState where
  addrs : List Address
  reads : List Int64
  deriving DecidableEq

/-- The loop `for i := n; i <= m; i++` of `run`, from the counter value `i`,
on `fuel` iterations at most: it reads block `i`, returns the reader's error
on failure, and otherwise applies `updateAddressInfo` and goes on with `i + 1`
(which wraps at `2^63 - 1`). The result is the state when the loop ends and
the error it returned, if any; `none` when the fuel does not suffice. -/
def scanLoop {ε : Type} (reader : Int64 → Except ε (List Deposit)) (m : Int64) :
    Nat → Int64 → LoopState → Option (LoopState × Option ε)
  | 0, _, _ => none
  | fuel + 1, i, s =>
      if i ≤ m then
        match reader i with
        | .error err => some ({ s with reads := s.reads ++ [i] }, some err)
        | .ok deposits =>
            scanLoop reader m fuel (i + 1)
              { addrs := updateAddressInfo s.addrs deposits i, reads := s.reads ++ [i] }
      else some (s, none)

/-- The range scan of `run` over the blocks `n`, ..., `m`. -/
def scanRange {ε : Type} (reader : Int64 → Except ε (List Deposit)) (addrs : List Address)
    (n m : Int64) (fuel : Nat) : Option (LoopState × Option ε) :=
  scanLoop reader m fuel n { addrs := addrs, reads := [] }

/-- The block heights `n`, `n + 1`, ... that `count` rounds of `i++` run through. -/
def blocksFrom (n : Int64) : Nat → List Int64
  | 0 => []
  | count + 1 => n :: blocksFrom (n + 1) count

/-! ## Predicates and sample data of the statements -/

/-- The watermark invariant of the reachable records, for all block heights:
`MinScanBlock <= MidScanBlock`; `MidScanBlock <= MaxScanBlock` unless the high
edge has wrapped to `-2^63`; and a negative `MinScanBlock` only with all three
watermarks equal. -/
def Inv (a : Address) : Prop :=
  a.MinScanBlock ≤ a.MidScanBlock ∧
  (a.MidScanBlock ≤ a.MaxScanBlock ∨
    (a.MaxScanBlock = Int64.minVal ∧ Int64.minVal < a.MinScanBlock)) ∧
  (0 ≤ a.MinScanBlock ∨ (a.MinScanBlock = a.MidScanBlock ∧ a.MidScanBlock = a.MaxScanBlock))

/-- The watermark invariant of the records reached without the height `-2^63`. -/
def PlainInv (a : Address) : Prop :=
  0 ≤ a.MinScanBlock ∧ a.MinScanBlock ≤ a.MidScanBlock ∧ a.MidScanBlock ≤ a.MaxScanBlock

/-- The choice of the short strategy in the words of the specification, the
gap `MidScanBlock - MinScanBlock` being the difference of the two integers:
when some record has a gap above 0, `m` is the `MinScanBlock` of the first
record, in list order, whose gap is the least positive gap of the list; when
none has, `m` is the `MinScanBlock` of the first record of the list. -/
def ShortChoice (addrs : List Address) (m : Int64) : Prop :=
  ((∃ a ∈ addrs, a.MidScanBlock.val - a.MinScanBlock.val > 0) →
    ∃ (pre : List Address) (a : Address) (post : List Address),
      addrs = pre ++ a :: post ∧ a.MinScanBlock = m ∧
      a.MidScanBlock.val - a.MinScanBlock.val > 0 ∧
      (∀ x ∈ addrs, x.MidScanBlock.val - x.MinScanBlock.val > 0 →
        a.MidScanBlock.val - a.MinScanBlock.val ≤ x.MidScanBlock.val - x.MinScanBlock.val) ∧
      (∀ x ∈ pre, x.MidScanBlock.val - x.MinScanBlock.val
        ≠ a.MidScanBlock.val - a.MinScanBlock.val)) ∧
  ((¬ ∃ a ∈ addrs, a.MidScanBlock.val - a.MinScanBlock.val > 0) →
    ∃ (a0 : Address) (rest : List Address), addrs = a0 :: rest ∧ a0.MinScanBlock = m)

/-- The choice that `findShort` makes on any list, the gap being the `int64`
difference `MidScanBlock - MinScanBlock` that the code computes: when some
record has a gap other than 0, `m` is the `MinScanBlock` of the first record,
in list order, whose gap is the least gap other than 0 of the list; when none
has, `m` is the `MinScanBlock` of the first record of the list. -/
def ShortChoiceNonzero (addrs : List Address) (m : Int64) : Prop :=
  ((∃ a ∈ addrs, a.MidScanBlock - a.MinScanBlock ≠ 0) →
    ∃ (pre : List Address) (a : Address) (post : List Address),
      addrs = pre ++ a :: post ∧ a.MinScanBlock = m ∧
      a.MidScanBlock - a.MinScanBlock ≠ 0 ∧
      (∀ x ∈ addrs, x.MidScanBlock - x.MinScanBlock ≠ 0 →
        a.MidScanBlock - a.MinScanBlock ≤ x.MidScanBlock - x.MinScanBlock) ∧
      (∀ x ∈ pre, x.MidScanBlock - x.MinScanBlock ≠ a.MidScanBlock - a.MinScanBlock)) ∧
  ((¬ ∃ a ∈ addrs, a.MidScanBlock - a.MinScanBlock ≠ 0) →
    ∃ (a0 : Address) (rest : List Address), addrs = a0 :: rest ∧ a0.MinScanBlock = m)

/-- A deposit of 5 satoshi to the address "a" in block 2. -/
def sampleTx : Tx :=
  { TxHash := "f1:0", Address := "a", BlockHash := "h2", ParentHash := "h1",
    BlockHeight := 2, SatoshiAmount := 5, BitcoinAmount := "0.00000005" }

/-- A deposit of 7 satoshi to the address "a" in block 10. -/
def sampleTx10 : Tx :=
  { TxHash := "c4:1", Address := "a", BlockHash := "h10", ParentHash := "h9",
    BlockHeight := 10, SatoshiAmount := 7, BitcoinAmount := "0.00000007" }

/-- A deposit of 9 satoshi to the address "a" in block 102. -/
def sampleTx102 : Tx :=
  { TxHash := "d7:0", Address := "a", BlockHash := "h102", ParentHash := "h101",
    BlockHeight := 102, SatoshiAmount := 9, BitcoinAmount := "0.00000009" }

/-- A deposit of 3 satoshi to the address "b" in block 102. -/
def sampleTxB : Tx :=
  { TxHash := "d7:1", Address := "b", BlockHash := "h102", ParentHash := "h101",
    BlockHeight := 102, SatoshiAmount := 3, BitcoinAmount := "0.00000003" }

/-- The record with watermarks (0, 100, 101). -/
def lagging : Address :=
  { Addr := "a", MinScanBlock := 0, MidScanBlock := 100, MaxScanBlock := 101, Txs := [] }

/-- The record (0, 2^63 - 1, -2^63): a fresh record after the heights
`2^63 - 1` and `-2^63`. -/
def wrapped : Address :=
  { Addr := "a", MinScanBlock := 0, MidScanBlock := Int64.maxVal,
    MaxScanBlock := Int64.minVal, Txs := [] }

/-- The record (0, 2^63 - 1, 2^63 - 1): a fresh record after the height
`2^63 - 1`. -/
def topped : Address :=
  { Addr := "a", MinScanBlock := 0, MidScanBlock := Int64.maxVal,
    MaxScanBlock := Int64.maxVal, Txs := [] }

/-- The record (0, 50, 50): a fresh record after the height 50. -/
def lowRecord : Address :=
  { Addr := "a", MinScanBlock := 0, MidScanBlock := 50, MaxScanBlock := 50, Txs := [] }

/-- The record (1, 100, 100): a fresh record after the heights 100 and 1. -/
def highRecord : Address :=
  { Addr := "b", MinScanBlock := 1, MidScanBlock := 100, MaxScanBlock := 100, Txs := [] }

/-- A record (0, 100, 101) of the address "a" that stores `sampleTx`. -/
def frameA : Address :=
  { Addr := "a", MinScanBlock := 0, MidScanBlock := 100, MaxScanBlock := 101,
    Txs := [sampleTx] }

/-- A record (5, 50, 60) of the address "b" without transactions; at the
height 102 no guard holds for it. -/
def frameB : Address :=
  { Addr := "b", MinScanBlock := 5, MidScanBlock := 50, MaxScanBlock := 60, Txs := [] }

/-- A batch with a new deposit to "a", the deposit that `frameA` stores, and a
deposit to "b". -/
def frameBatch : List Deposit :=
  [⟨"a", sampleTx102⟩, ⟨"a", sampleTx⟩, ⟨"b", sampleTxB⟩]

/-- A record with the gap `MidScanBlock - MinScanBlock = 5`. -/
def gapFive : Address :=
  { Addr := "A", MinScanBlock := 0, MidScanBlock := 5, MaxScanBlock := 5, Txs := [] }

/-- A record with `MidScanBlock` below `MinScanBlock`: the gap is -7. -/
def gapNegative : Address :=
  { Addr := "B", MinScanBlock := 10, MidScanBlock := 3, MaxScanBlock := 12, Txs := [] }

/-- A record with the gap 3 and `MinScanBlock = 4`. -/
def gapThreeA : Address :=
  { Addr := "A", MinScanBlock := 4, MidScanBlock := 7, MaxScanBlock := 9, Txs := [] }

/-- A record with the gap 3 and `MinScanBlock = 6`. -/
def gapThreeB : Address :=
  { Addr := "B", MinScanBlock := 6, MidScanBlock := 9, MaxScanBlock := 9, Txs := [] }

/-- The example of the far strategy: A = (min 2, mid 10, max 10). -/
def farA : Address :=
  { Addr := "A", MinScanBlock := 2, MidScanBlock := 10, MaxScanBlock := 10, Txs := [] }

/-- The example of the far strategy: B = (min 5, mid 10, max 10). -/
def farB : Address :=
  { Addr := "B", MinScanBlock := 5, MidScanBlock := 10, MaxScanBlock := 10, Txs := [] }

/-- A ledger reader for the range scan example: block 10 holds one deposit to
"a", block 11 cannot be read, every other block is empty. -/
def sampleReader (i : Int64) : Except String (List Deposit) :=
  if i = 10 then .ok [⟨"a", sampleTx10⟩]
  else if i = 11 then .error "block 11 not found"
  else .ok []

/-- The batches of `sampleReader`. -/
def sampleBatch (i : Int64) : List Deposit :=
  if i = 10 then [⟨"a", sampleTx10⟩] else []

/-- A ledger reader that reads every block as empty and never fails. -/
def emptyReader (_ : Int64) : Except String (List Deposit) :=
  .ok []

/-- A ledger reader that fails on block `-2^63` only and reads every other
block as empty. -/
def failAtMin (i : Int64) : Except String (List Deposit) :=
  if i = Int64.minVal then .error "negative height" else .ok []

/-- The batches of the readers without deposits. -/
def noBatch (_ : Int64) : List Deposit :=
  []

/-! ## Arithmetic of `int64` -/

theorem Int64.eq_iff (a b : Int64) : a = b ↔ a.val = b.val := by
  cases a; cases b; simp

theorem Int64.lt_iff (a b : Int64) : a < b ↔ a.val < b.val := Iff.rfl

theorem Int64.le_iff (a b : Int64) : a ≤ b ↔ a.val ≤ b.val := Iff.rfl

theorem Int64.val_sub (a b : Int64) : (a - b).val = wrap64 (a.val - b.val) := rfl

theorem Int64.val_add (a b : Int64) : (a + b).val = wrap64 (a.val + b.val) := rfl

theorem Int64.val_ofInt (x : Int) : (Int64.ofInt x).val = wrap64 x := rfl

theorem Int64.val_zero : (0 : Int64).val = 0 := rfl

theorem Int64.val_one : (1 : Int64).val = 1 := rfl

theorem Int64.val_minVal : Int64.minVal.val = -9223372036854775808 := rfl

theorem Int64.val_maxVal : Int64.maxVal.val = 9223372036854775807 := rfl

theorem Int64.ofInt_val (a : Int64) : Int64.ofInt a.val = a := by
  have r := a.inRange
  rw [Int64.eq_iff, Int64.val_ofInt]
  unfold wrap64
  omega

/-! ## The deposit matcher as a filter -/

theorem findTxs_foldl_eq (addr : Address) (deps : List Deposit) (acc : List Tx) :
    deps.foldl
      (fun txs dep =>
        if addr.Addr == dep.Addr && !existTx addr dep.Tx then txs ++ [dep.Tx] else txs)
      acc
    = acc ++ (deps.filter
        (fun dep => addr.Addr == dep.Addr && !existTx addr dep.Tx)).map (fun dep => dep.Tx) := by
  induction deps generalizing acc with
  | nil => simp
  | cons d ds ih =>
    simp only [List.foldl_cons, List.filter_cons]
    rw [ih]
    by_cases h : (addr.Addr == d.Addr && !existTx addr d.Tx) = true
    · simp [h]
    · simp [h]

theorem findTxs_eq_filter (addr : Address) (deps : List Deposit) :
    findTxs addr deps
    = (deps.filter
        (fun dep => addr.Addr == dep.Addr && !existTx addr dep.Tx)).map (fun dep => dep.Tx) := by
  unfold findTxs
  rw [findTxs_foldl_eq]
  simp

theorem existTx_iff (addr : Address) (tx : Tx) : existTx addr tx = true ↔ tx ∈ addr.Txs := by
  unfold existTx
  simp [List.any_eq_true]

theorem mem_findTxs (addr : Address) (deps : List Deposit) (tx : Tx) :
    tx ∈ findTxs addr deps ↔
      (∃ dep ∈ deps, dep.Addr = addr.Addr ∧ dep.Tx = tx) ∧ tx ∉ addr.Txs := by
  rw [findTxs_eq_filter]
  simp only [List.mem_map, List.mem_filter, Bool.and_eq_true, beq_iff_eq, Bool.not_eq_true',
    ← Bool.not_eq_true, existTx_iff]
  constructor
  · rintro ⟨dep, ⟨hd, ha, hn⟩, rfl⟩
    exact ⟨⟨dep, hd, ha.symm, rfl⟩, hn⟩
  · rintro ⟨⟨dep, hd, ha, rfl⟩, hn⟩
    exact ⟨dep, ⟨hd, ha.symm, hn⟩, rfl⟩

/-! ## The update of one record -/

theorem updateAddress_eq_switchIn (addr : Address) (deps : List Deposit) (blockID : Int64) :
    updateAddress addr deps blockID
    = switchIn [Rule.bootstrap, Rule.lowEdge, Rule.highEdge, Rule.collapsed]
        addr deps blockID := by
  unfold updateAddress switchIn
  simp only [List.find?_cons, List.find?_nil, Rule.guard]
  generalize (addr.MaxScanBlock == 0 && decide (blockID > 1)) = g1
  generalize (decide (addr.MinScanBlock < addr.MaxScanBlock)
    && addr.MinScanBlock == blockID - 1) = g2
  generalize (decide (addr.MaxScanBlock > addr.MinScanBlock)
    && addr.MaxScanBlock == blockID - 1) = g3
  generalize (addr.MinScanBlock == addr.MidScanBlock && addr.MinScanBlock == addr.MaxScanBlock
    && addr.MaxScanBlock == blockID - 1) = g4
  cases g1 <;> cases g2 <;> cases g3 <;> cases g4 <;> rfl

theorem guard_unique (addr : Address) (blockID : Int64) (r1 r2 : Rule)
    (h1 : r1.guard addr blockID = true) (h2 : r2.guard addr blockID = true) : r1 = r2 := by
  have k1 := addr.MinScanBlock.inRange
  have k2 := addr.MidScanBlock.inRange
  have k3 := addr.MaxScanBlock.inRange
  have kb := blockID.inRange
  cases r1 <;> cases r2 <;>
    simp only [Rule.guard, Bool.and_eq_true, decide_eq_true_eq, beq_iff_eq, gt_iff_lt,
      Int64.eq_iff, Int64.lt_iff, Int64.val_sub, Int64.val_zero, Int64.val_one, wrap64]
      at h1 h2 <;>
    first
      | rfl
      | (exfalso; omega)

theorem switchIn_order (o1 o2 : List Rule) (h1 : ∀ r, r ∈ o1) (h2 : ∀ r, r ∈ o2)
    (addr : Address) (deps : List Deposit) (blockID : Int64) :
    switchIn o1 addr deps blockID = switchIn o2 addr deps blockID := by
  unfold switchIn
  cases e1 : o1.find? (fun r => r.guard addr blockID) with
  | none =>
    have hn : ∀ r : Rule, r.guard addr blockID = false := by
      intro r
      have := List.find?_eq_none.mp e1 r (h1 r)
      simpa using this
    have e2 : o2.find? (fun r => r.guard addr blockID) = none := by
      apply List.find?_eq_none.mpr
      intro r _
      simp [hn r]
    rw [e2]
  | some r =>
    have hr : r.guard addr blockID = true :=
      List.find?_some (p := fun r : Rule => r.guard addr blockID) e1
    cases e2 : o2.find? (fun r => r.guard addr blockID) with
    | none =>
      have := List.find?_eq_none.mp e2 r (h2 r)
      simp [hr] at this
    | some r2 =>
      have hr2 : r2.guard addr blockID = true :=
        List.find?_some (p := fun r : Rule => r.guard addr blockID) e2
      rw [guard_unique addr blockID r r2 hr hr2]

theorem updateAddress_inv (a : Address) (deps : List Deposit) (b : Int64) (h : Inv a) :
    Inv (updateAddress a deps b) := by
  have r1 := a.MinScanBlock.inRange
  have r2 := a.MidScanBlock.inRange
  have r3 := a.MaxScanBlock.inRange
  have rb := b.inRange
  unfold Inv at *
  unfold updateAddress
  split_ifs with g1 g2 g3 g4 g5 <;>
    simp only [Bool.and_eq_true, decide_eq_true_eq, beq_iff_eq, gt_iff_lt, ge_iff_le,
      Int64.eq_iff, Int64.lt_iff, Int64.le_iff, Int64.val_sub, Int64.val_zero, Int64.val_one,
      Int64.val_minVal, wrap64, not_and, not_lt, and_self, or_true, true_or, le_refl,
      true_and, and_true] at * <;>
    (try omega)

theorem updateAddress_plainInv (a : Address) (deps : List Deposit) (b : Int64)
    (hb : b ≠ Int64.minVal) (h : PlainInv a) : PlainInv (updateAddress a deps b) := by
  have r1 := a.MinScanBlock.inRange
  have r2 := a.MidScanBlock.inRange
  have r3 := a.MaxScanBlock.inRange
  have rb := b.inRange
  unfold PlainInv at *
  unfold updateAddress
  split_ifs with g1 g2 g3 g4 g5 <;>
    simp only [Bool.and_eq_true, decide_eq_true_eq, beq_iff_eq, gt_iff_lt, ge_iff_le, ne_eq,
      Int64.eq_iff, Int64.lt_iff, Int64.le_iff, Int64.val_sub, Int64.val_zero, Int64.val_one,
      Int64.val_minVal, wrap64, not_and, not_lt, and_self, or_true, true_or, le_refl,
      true_and, and_true] at * <;>
    (try omega)

theorem updateAddress_addr (a : Address) (deps : List Deposit) (b : Int64) :
    (updateAddress a deps b).Addr = a.Addr := by
  unfold updateAddress
  split_ifs <;> rfl

theorem updateAddress_txs (a : Address) (deps : List Deposit) (b : Int64) :
    (updateAddress a deps b).Txs = a.Txs ++ findTxs a deps ∨ updateAddress a deps b = a := by
  unfold updateAddress
  split_ifs <;> simp

theorem updateAddress_unchanged (a : Address) (deps : List Deposit) (b : Int64)
    (h1 : ¬ (a.MaxScanBlock = 0 ∧ b > 1))
    (h2 : ¬ (a.MinScanBlock < a.MaxScanBlock ∧ a.MinScanBlock = b - 1))
    (h3 : ¬ (a.MaxScanBlock > a.MinScanBlock ∧ a.MaxScanBlock = b - 1))
    (h4 : ¬ (a.MinScanBlock = a.MidScanBlock ∧ a.MinScanBlock = a.MaxScanBlock
              ∧ a.MaxScanBlock = b - 1)) :
    updateAddress a deps b = a := by
  unfold updateAddress
  have g1 : (a.MaxScanBlock == 0 && decide (b > 1)) = false := by
    rw [Bool.eq_false_iff]
    intro hg
    simp only [Bool.and_eq_true, decide_eq_true_eq, beq_iff_eq] at hg
    exact h1 hg
  have g2 : (decide (a.MinScanBlock < a.MaxScanBlock) && a.MinScanBlock == b - 1) = false := by
    rw [Bool.eq_false_iff]
    intro hg
    simp only [Bool.and_eq_true, decide_eq_true_eq, beq_iff_eq] at hg
    exact h2 hg
  have g3 : (decide (a.MaxScanBlock > a.MinScanBlock) && a.MaxScanBlock == b - 1) = false := by
    rw [Bool.eq_false_iff]
    intro hg
    simp only [Bool.and_eq_true, decide_eq_true_eq, beq_iff_eq] at hg
    exact h3 hg
  have g4 : (a.MinScanBlock == a.MidScanBlock && a.MinScanBlock == a.MaxScanBlock
      && a.MaxScanBlock == b - 1) = false := by
    rw [Bool.eq_false_iff]
    intro hg
    simp only [Bool.and_eq_true, decide_eq_true_eq, beq_iff_eq] at hg
    exact h4 ⟨hg.1.1, hg.1.2, hg.2⟩
  simp only [g1, g2, g3, g4]
  rfl

theorem runSteps_preserves (P : Address → Prop) (Q : Int64 → Prop)
    (hstep : ∀ (a : Address) (deps : List Deposit) (b : Int64),
      Q b → P a → P (updateAddress a deps b))
    (init : List Address) (steps : List (List Deposit × Int64))
    (hq : ∀ st ∈ steps, Q st.2) (h : ∀ x ∈ init, P x) :
    ∀ a ∈ runSteps init steps, P a := by
  unfold runSteps
  induction steps generalizing init with
  | nil => simpa using h
  | cons st rest ih =>
    simp only [List.foldl_cons]
    apply ih
    · intro s hs
      exact hq s (List.mem_cons_of_mem _ hs)
    · intro x hx
      unfold updateAddressInfo at hx
      obtain ⟨y, hy, rfl⟩ := List.mem_map.mp hx
      exact hstep y st.1 st.2 (hq st (List.mem_cons_self _ _)) (h y hy)

theorem isFresh_inv (a : Address) (h : isFresh a) : Inv a := by
  unfold isFresh at h
  unfold Inv
  simp only [Int64.eq_iff, Int64.lt_iff, Int64.le_iff, Int64.val_zero, Int64.val_minVal] at *
  omega

theorem isFresh_plainInv (a : Address) (h : isFresh a) : PlainInv a := by
  unfold isFresh at h
  unfold PlainInv
  simp only [Int64.eq_iff, Int64.le_iff, Int64.val_zero] at *
  omega

theorem newAddr_fresh (name : String) : ∀ x ∈ [newAddr name], isFresh x := by
  intro x hx
  rw [List.mem_singleton.mp hx]
  exact ⟨rfl, rfl, rfl⟩

theorem reachable_inv (a : Address) (h : Reachable a) : Inv a := by
  obtain ⟨init, steps, hf, ha⟩ := h
  exact runSteps_preserves Inv (fun _ => True)
    (fun a deps b _ h => updateAddress_inv a deps b h) init steps (fun _ _ => trivial)
    (fun x hx => isFresh_inv x (hf x hx)) a ha

theorem inv_min_le_max (a : Address) (h : Inv a) :
    a.MinScanBlock ≤ a.MaxScanBlock ∨ a.MaxScanBlock = Int64.minVal := by
  unfold Inv at h
  simp only [Int64.eq_iff, Int64.lt_iff, Int64.le_iff, Int64.val_zero, Int64.val_minVal] at *
  omega

/-! ## Claims about the watermark update -/

/-- C1, refuted as stated: a fresh record taken through the heights `2^63 - 1`
and `-2^63` ends as (0, 2^63 - 1, -2^63), with `MinScanBlock` above
`MaxScanBlock`: the bootstrap case fires, then the high-edge case, whose test
`MaxScanBlock == blockID - 1` holds because `-2^63 - 1` wraps to `2^63 - 1`. -/
theorem min_above_max_after_wrap :
    (∀ x ∈ [newAddr "a"], isFresh x) ∧
    ¬ (∀ a ∈ runSteps [newAddr "a"] [([], Int64.maxVal), ([], Int64.minVal)],
        a.MinScanBlock ≤ a.MaxScanBlock) := by
  constructor
  · exact newAddr_fresh "a"
  · intro h
    have h2 := h wrapped (by decide)
    revert h2
    decide

/-- C1, amended: every record obtained from fresh records by a finite sequence
of `updateAddressInfo` steps, with any block heights and any deposit batches,
has `MinScanBlock <= MaxScanBlock` or has `MaxScanBlock = -2^63` (the high edge
was moved on from `2^63 - 1` by the height `-2^63`); and it has
`MinScanBlock <= MaxScanBlock` whenever no height of the sequence is `-2^63`. -/
theorem min_le_max_unless_wrapped (init : List Address) (steps : List (List Deposit × Int64))
    (hfresh : ∀ x ∈ init, isFresh x) :
    ∀ a ∈ runSteps init steps,
      (a.MinScanBlock ≤ a.MaxScanBlock ∨ a.MaxScanBlock = Int64.minVal) ∧
      ((∀ st ∈ steps, st.2 ≠ Int64.minVal) → a.MinScanBlock ≤ a.MaxScanBlock) := by
  intro a ha
  constructor
  · exact inv_min_le_max a (reachable_inv a ⟨init, steps, hfresh, ha⟩)
  · intro hsteps
    have h := runSteps_preserves PlainInv (fun b => b ≠ Int64.minVal)
      (fun a deps b hb h => updateAddress_plainInv a deps b hb h) init steps hsteps
      (fun x hx => isFresh_plainInv x (hfresh x hx)) a ha
    unfold PlainInv at h
    simp only [Int64.le_iff] at *
    omega

/-- Witness of C1 amended: a fresh record taken through the blocks 100, 101
and 1 ends as (1, 100, 101). -/
theorem min_le_max_unless_wrapped_witness :
    (∀ x ∈ [newAddr "a"], isFresh x) ∧
    (∀ st ∈ [(([] : List Deposit), (100 : Int64)), ([], 101), ([], 1)], st.2 ≠ Int64.minVal) ∧
    runSteps [newAddr "a"] [([], 100), ([], 101), ([], 1)]
      = [{ Addr := "a", MinScanBlock := 1, MidScanBlock := 100, MaxScanBlock := 101,
           Txs := [] }] ∧
    ∀ a ∈ runSteps [newAddr "a"] [([], 100), ([], 101), ([], 1)],
      a.MinScanBlock ≤ a.MaxScanBlock :=
  ⟨newAddr_fresh "a", by decide, by decide,
   fun a ha =>
     (min_le_max_unless_wrapped [newAddr "a"] [([], 100), ([], 101), ([], 1)]
       (newAddr_fresh "a") a ha).2 (by decide)⟩


/-- C8: `updateAddressInfo` keeps the length of the list and, at every index,
the address of the record; the stored transactions of the old record are an
initial segment of those of the new one; and a record for which none of the
four guards holds is returned unchanged. -/
theorem updateAddressInfo_frame (addrs : List Address) (deps : List Deposit) (b : Int64) :
    (updateAddressInfo addrs deps b).length = addrs.length ∧
    ∀ (i : Nat) (a : Address), addrs[i]? = some a →
      ∃ a2 : Address, (updateAddressInfo addrs deps b)[i]? = some a2 ∧
        a2.Addr = a.Addr ∧
        (∃ added : List Tx, a2.Txs = a.Txs ++ added) ∧
        (¬ (a.MaxScanBlock = 0 ∧ b > 1) →
         ¬ (a.MinScanBlock < a.MaxScanBlock ∧ a.MinScanBlock = b - 1) →
         ¬ (a.MaxScanBlock > a.MinScanBlock ∧ a.MaxScanBlock = b - 1) →
         ¬ (a.MinScanBlock = a.MidScanBlock ∧ a.MinScanBlock = a.MaxScanBlock
              ∧ a.MaxScanBlock = b - 1) →
         a2 = a) := by
  refine ⟨by simp [updateAddressInfo], ?_⟩
  intro i a hi
  refine ⟨updateAddress a deps b, by simp [updateAddressInfo, hi],
    updateAddress_addr a deps b, ?_, ?_⟩
  · rcases updateAddress_txs a deps b with h | h
    · exact ⟨findTxs a deps, h⟩
    · exact ⟨[], by rw [h]; simp⟩
  · exact updateAddress_unchanged a deps b

/-- Witness of C8: at the height 102 and the batch `frameBatch`, the record
`frameA`, which stores `sampleTx`, keeps it in front of the new `sampleTx102`
(the high-edge case fires), and the record `frameB`, for which no guard holds,
is returned unchanged although the batch has a deposit for its address. -/
theorem updateAddressInfo_frame_witness :
    (updateAddressInfo [frameA, frameB] frameBatch 102).length = 2 ∧
    (∃ a2 : Address, (updateAddressInfo [frameA, frameB] frameBatch 102)[0]? = some a2 ∧
      a2.Addr = "a" ∧ a2.Txs = [sampleTx] ++ [sampleTx102]) ∧
    (updateAddressInfo [frameA, frameB] frameBatch 102)[1]? = some frameB := by
  have h := updateAddressInfo_frame [frameA, frameB] frameBatch 102
  refine ⟨h.1, ?_, ?_⟩
  · obtain ⟨a2, e0, hAddr, _, _⟩ := h.2 0 frameA rfl
    refine ⟨a2, e0, hAddr, ?_⟩
    have e : (updateAddressInfo [frameA, frameB] frameBatch 102)[0]?
        = some { frameA with Txs := [sampleTx, sampleTx102], MaxScanBlock := 102 } := by
      decide
    rw [e] at e0
    rw [← Option.some.inj e0]
    rfl
  · obtain ⟨b2, e1, _, _, hsame⟩ := h.2 1 frameB rfl
    rw [e1, hsame (by decide) (by decide) (by decide) (by decide)]

/-- C9: for every record and block height no two of the four guards of the
`switch` hold together, so that testing the four cases in any order gives the
result of `updateAddressInfo`. -/
theorem guards_mutually_exclusive (addrs : List Address) (deps : List Deposit) (b : Int64) :
    (∀ a : Address,
      ¬ ((a.MaxScanBlock = 0 ∧ b > 1) ∧
          (a.MinScanBlock < a.MaxScanBlock ∧ a.MinScanBlock = b - 1)) ∧
      ¬ ((a.MaxScanBlock = 0 ∧ b > 1) ∧
          (a.MaxScanBlock > a.MinScanBlock ∧ a.MaxScanBlock = b - 1)) ∧
      ¬ ((a.MaxScanBlock = 0 ∧ b > 1) ∧
          (a.MinScanBlock = a.MidScanBlock ∧ a.MinScanBlock = a.MaxScanBlock
            ∧ a.MaxScanBlock = b - 1)) ∧
      ¬ ((a.MinScanBlock < a.MaxScanBlock ∧ a.MinScanBlock = b - 1) ∧
          (a.MaxScanBlock > a.MinScanBlock ∧ a.MaxScanBlock = b - 1)) ∧
      ¬ ((a.MinScanBlock < a.MaxScanBlock ∧ a.MinScanBlock = b - 1) ∧
          (a.MinScanBlock = a.MidScanBlock ∧ a.MinScanBlock = a.MaxScanBlock
            ∧ a.MaxScanBlock = b - 1)) ∧
      ¬ ((a.MaxScanBlock > a.MinScanBlock ∧ a.MaxScanBlock = b - 1) ∧
          (a.MinScanBlock = a.MidScanBlock ∧ a.MinScanBlock = a.MaxScanBlock
            ∧ a.MaxScanBlock = b - 1))) ∧
    (∀ order : List Rule, (∀ r : Rule, r ∈ order) →
      addrs.map (fun a => switchIn order a deps b) = updateAddressInfo addrs deps b) := by
  constructor
  · intro a
    have r1 := a.MinScanBlock.inRange
    have r2 := a.MidScanBlock.inRange
    have r3 := a.MaxScanBlock.inRange
    have rb := b.inRange
    simp only [gt_iff_lt, Int64.eq_iff, Int64.lt_iff, Int64.val_sub, Int64.val_zero,
      Int64.val_one, wrap64]
    refine ⟨?_, ?_, ?_, ?_, ?_, ?_⟩ <;> omega
  · intro order horder
    unfold updateAddressInfo
    apply List.map_congr_left
    intro a _
    rw [updateAddress_eq_switchIn]
    apply switchIn_order order _ horder
    intro r
    cases r <;> simp

/-- Witness of C9: the reverse of the source order on a two-record list. -/
theorem guards_mutually_exclusive_witness :
    (∀ r : Rule, r ∈ [Rule.collapsed, Rule.highEdge, Rule.lowEdge, Rule.bootstrap]) ∧
    [newAddr "a", newAddr "b"].map
        (fun a => switchIn [Rule.collapsed, Rule.highEdge, Rule.lowEdge, Rule.bootstrap] a [] 1)
      = updateAddressInfo [newAddr "a", newAddr "b"] [] 1 :=
  ⟨fun r => by cases r <;> simp,
   (guards_mutually_exclusive [newAddr "a", newAddr "b"] [] 1).2
     [Rule.collapsed, Rule.highEdge, Rule.lowEdge, Rule.bootstrap]
     (fun r => by cases r <;> simp)⟩

/-- The record with watermarks (0, 100, 101) is reachable: a fresh record
taken through the blocks 100 and 101. -/
theorem reachable_lagging : Reachable lagging :=
  ⟨[newAddr "a"], [([], 100), ([], 101)], newAddr_fresh "a", by decide⟩

/-- C10, refuted as stated: no finite sequence of `updateAddressInfo` steps
from fresh records leads to a record with `MidScanBlock < MinScanBlock`. -/
theorem no_mid_below_min :
    ¬ ∃ (init : List Address) (steps : List (List Deposit × Int64)) (a : Address),
        (∀ x ∈ init, isFresh x) ∧ a ∈ runSteps init steps ∧
        a.MidScanBlock < a.MinScanBlock := by
  rintro ⟨init, steps, a, hf, ha, hlt⟩
  have h := reachable_inv a ⟨init, steps, hf, ha⟩
  unfold Inv at h
  simp only [Int64.lt_iff, Int64.le_iff] at *
  omega

/-- C10, amended: on every reachable record `MinScanBlock <= MidScanBlock`;
the watermark that `MidScanBlock` can lag is `MaxScanBlock`: some reachable
record has `MidScanBlock < MaxScanBlock`. -/
theorem mid_never_below_min :
    (∀ a : Address, Reachable a → a.MinScanBlock ≤ a.MidScanBlock) ∧
    (∃ a : Address, Reachable a ∧ a.MidScanBlock < a.MaxScanBlock) := by
  constructor
  · intro a ha
    exact (reachable_inv a ha).1
  · exact ⟨_, reachable_lagging, by decide⟩

/-- Witness of C10 amended: the reachable record (0, 100, 101). -/
theorem mid_never_below_min_witness :
    Reachable lagging ∧ lagging.MinScanBlock ≤ lagging.MidScanBlock :=
  ⟨reachable_lagging, mid_never_below_min.1 lagging reachable_lagging⟩

/-! ## Claims about the deposit matcher -/

theorem findTxs_nodup (a : Address) (deps : List Deposit) (hdeps : deps.Nodup) :
    (findTxs a deps).Nodup := by
  rw [findTxs_eq_filter]
  apply List.Nodup.map_on _ (hdeps.filter _)
  intro x hx y hy hxy
  have hxa : a.Addr = x.Addr := by
    have := (List.mem_filter.mp hx).2
    simp only [Bool.and_eq_true, beq_iff_eq] at this
    exact this.1
  have hya : a.Addr = y.Addr := by
    have := (List.mem_filter.mp hy).2
    simp only [Bool.and_eq_true, beq_iff_eq] at this
    exact this.1
  cases x
  cases y
  simp_all

theorem updateAddress_nodup (a : Address) (deps : List Deposit) (b : Int64)
    (hdeps : deps.Nodup) (h : a.Txs.Nodup) : (updateAddress a deps b).Txs.Nodup := by
  rcases updateAddress_txs a deps b with e | e
  · rw [e]
    apply List.Nodup.append h (findTxs_nodup a deps hdeps)
    intro tx h1 h2
    exact ((mem_findTxs a deps tx).mp h2).2 h1
  · rw [e]
    exact h

/-- C4, refuted as stated: a batch that holds the same deposit twice makes
`updateAddressInfo` store the transaction twice in a record whose list was
free of duplicates. -/
theorem duplicate_in_batch_stored_twice :
    (∀ a ∈ [newAddr "a"], a.Txs.Nodup) ∧
    ¬ (∀ a ∈ updateAddressInfo [newAddr "a"] [⟨"a", sampleTx⟩, ⟨"a", sampleTx⟩] 2,
        a.Txs.Nodup) := by
  constructor
  · simp [newAddr]
  · intro h
    have h2 := h { Addr := "a", MinScanBlock := 0, MidScanBlock := 2, MaxScanBlock := 2,
                   Txs := [sampleTx, sampleTx] } (by decide)
    simp at h2

/-- C4, amended: when no deposit occurs twice in the batch, every record of
`updateAddressInfo addrs deps b` has a transaction list without duplicates,
provided every record of `addrs` has one. -/
theorem updateAddressInfo_nodup (addrs : List Address) (deps : List Deposit) (b : Int64)
    (hdeps : deps.Nodup) (h : ∀ a ∈ addrs, a.Txs.Nodup) :
    ∀ a ∈ updateAddressInfo addrs deps b, a.Txs.Nodup := by
  intro a ha
  unfold updateAddressInfo at ha
  obtain ⟨y, hy, rfl⟩ := List.mem_map.mp ha
  exact updateAddress_nodup y deps b hdeps (h y hy)

/-- Witness of C4 amended: the batch `frameBatch`, whose three deposits differ,
for the records `frameA` (which stores one of them) and `frameB` at the
height 102. -/
theorem updateAddressInfo_nodup_witness :
    frameBatch.Nodup ∧ (∀ a ∈ [frameA, frameB], a.Txs.Nodup) ∧
    ∀ a ∈ updateAddressInfo [frameA, frameB] frameBatch 102, a.Txs.Nodup :=
  ⟨by decide, by decide,
   updateAddressInfo_nodup [frameA, frameB] frameBatch 102 (by decide) (by decide)⟩

/-- C5: after the transactions found by `findTxs a deps` are appended to the
record, `findTxs` on the same batch finds nothing. -/
theorem findTxs_idempotent (a : Address) (deps : List Deposit) :
    findTxs { a with Txs := a.Txs ++ findTxs a deps } deps = [] := by
  apply List.eq_nil_iff_forall_not_mem.mpr
  intro tx htx
  obtain ⟨⟨dep, hd, haddr, hdtx⟩, hn⟩ := (mem_findTxs _ deps tx).mp htx
  simp only [List.mem_append, not_or] at hn
  exact hn.2 ((mem_findTxs a deps tx).mpr ⟨⟨dep, hd, haddr, hdtx⟩, hn.1⟩)

/-! ## Claims about block selection -/

theorem findFarStep_far (min mid : Int64) (l : List Address) (st : Int64 × Int64) :
    (l.foldl (findFarStep min mid) st).2 = st.2 ∨
    ∃ a ∈ l, (l.foldl (findFarStep min mid) st).2 = a.MinScanBlock := by
  induction l generalizing st with
  | nil => exact Or.inl rfl
  | cons x xs ih =>
    simp only [List.foldl_cons]
    rcases ih (findFarStep min mid st x) with h | ⟨a, ha, h⟩
    · rw [h]
      unfold findFarStep
      split_ifs
      · exact Or.inr ⟨x, List.mem_cons_self _ _, rfl⟩
      · exact Or.inl rfl
    · exact Or.inr ⟨a, List.mem_cons_of_mem _ ha, h⟩

/-- What `findFar` returns on any list: the value of `findMin`, or the
`MinScanBlock` of a record of the list as it stands, without one added. -/
theorem findFar_value (addrs : List Address) :
    findFar addrs = findMin addrs ∨
    ∃ a ∈ addrs, findFar addrs = some a.MinScanBlock := by
  cases addrs with
  | nil => exact Or.inl rfl
  | cons a0 rest =>
    simp only [findFar, findMin, findMid]
    rcases findFarStep_far _ _ (a0 :: rest) (0, _) with h | ⟨a, ha, h⟩
    · exact Or.inl (congrArg some h)
    · exact Or.inr ⟨a, ha, congrArg some h⟩

/-- C2, the code at the example of the specification: for A = (min 2, mid 10,
max 10) and B = (min 5, mid 10, max 10) `findFar` returns 5, the
`MinScanBlock` of B itself, not 6; and `updateAddressInfo` at the height 5
leaves both records as they are, whatever the batch. -/
theorem findFar_returns_raw_min :
    findFar [farA, farB] = some 5 ∧
    findFar [farA, farB] ≠ some (farB.MinScanBlock + 1) ∧
    ∀ deps : List Deposit, updateAddressInfo [farA, farB] deps 5 = [farA, farB] := by
  refine ⟨by decide, by decide, ?_⟩
  intro deps
  have hA : updateAddress farA deps 5 = farA :=
    updateAddress_unchanged farA deps 5 (by decide) (by decide) (by decide) (by decide)
  have hB : updateAddress farB deps 5 = farB :=
    updateAddress_unchanged farB deps 5 (by decide) (by decide) (by decide) (by decide)
  simp only [updateAddressInfo, List.map_cons, List.map_nil, hA, hB]


theorem foldl_least (f : Address → Int64) (l : List Address) (m0 : Int64) :
    l.foldl (fun m a => if f a < m then f a else m) m0 ≤ m0 ∧
    (∀ a ∈ l, l.foldl (fun m a => if f a < m then f a else m) m0 ≤ f a) ∧
    (l.foldl (fun m a => if f a < m then f a else m) m0 = m0 ∨
      ∃ a ∈ l, f a = l.foldl (fun m a => if f a < m then f a else m) m0) := by
  induction l generalizing m0 with
  | nil => exact ⟨Int.le_refl _, by simp, Or.inl rfl⟩
  | cons x xs ih =>
    simp only [List.foldl_cons]
    by_cases hx : f x < m0
    · simp only [hx, if_true]
      obtain ⟨h1, h2, h3⟩ := ih (f x)
      refine ⟨?_, ?_, ?_⟩
      · simp only [Int64.le_iff, Int64.lt_iff] at h1 hx ⊢
        omega
      · intro a ha
        rcases List.mem_cons.mp ha with rfl | ha
        · exact h1
        · exact h2 a ha
      · rcases h3 with h3 | ⟨a, ha, h3⟩
        · exact Or.inr ⟨x, List.mem_cons_self _ _, h3.symm⟩
        · exact Or.inr ⟨a, List.mem_cons_of_mem _ ha, h3⟩
    · simp only [hx, if_false]
      obtain ⟨h1, h2, h3⟩ := ih m0
      refine ⟨h1, ?_, ?_⟩
      · intro a ha
        rcases List.mem_cons.mp ha with rfl | ha
        · simp only [Int64.le_iff, Int64.lt_iff] at h1 hx ⊢
          omega
        · exact h2 a ha
      · rcases h3 with h3 | ⟨a, ha, h3⟩
        · exact Or.inl h3
        · exact Or.inr ⟨a, List.mem_cons_of_mem _ ha, h3⟩

theorem foldl_greatest (f : Address → Int64) (l : List Address) (m0 : Int64) :
    m0 ≤ l.foldl (fun m a => if f a > m then f a else m) m0 ∧
    (∀ a ∈ l, f a ≤ l.foldl (fun m a => if f a > m then f a else m) m0) ∧
    (l.foldl (fun m a => if f a > m then f a else m) m0 = m0 ∨
      ∃ a ∈ l, f a = l.foldl (fun m a => if f a > m then f a else m) m0) := by
  induction l generalizing m0 with
  | nil => exact ⟨Int.le_refl _, by simp, Or.inl rfl⟩
  | cons x xs ih =>
    simp only [List.foldl_cons]
    by_cases hx : f x > m0
    · simp only [hx, if_true]
      obtain ⟨h1, h2, h3⟩ := ih (f x)
      refine ⟨?_, ?_, ?_⟩
      · simp only [Int64.le_iff, Int64.lt_iff, gt_iff_lt] at h1 hx ⊢
        omega
      · intro a ha
        rcases List.mem_cons.mp ha with rfl | ha
        · exact h1
        · exact h2 a ha
      · rcases h3 with h3 | ⟨a, ha, h3⟩
        · exact Or.inr ⟨x, List.mem_cons_self _ _, h3.symm⟩
        · exact Or.inr ⟨a, List.mem_cons_of_mem _ ha, h3⟩
    · simp only [hx, if_false]
      obtain ⟨h1, h2, h3⟩ := ih m0
      refine ⟨h1, ?_, ?_⟩
      · intro a ha
        rcases List.mem_cons.mp ha with rfl | ha
        · simp only [Int64.le_iff, Int64.lt_iff, gt_iff_lt] at h1 hx ⊢
          omega
        · exact h2 a ha
      · rcases h3 with h3 | ⟨a, ha, h3⟩
        · exact Or.inl h3
        · exact Or.inr ⟨a, List.mem_cons_of_mem _ ha, h3⟩

theorem findMin_spec (addrs : List Address) (hne : addrs ≠ []) :
    ∃ lo : Int64, findMin addrs = some (lo + 1) ∧
      (∃ a ∈ addrs, a.MinScanBlock = lo) ∧ (∀ a ∈ addrs, lo ≤ a.MinScanBlock) := by
  cases addrs with
  | nil => exact absurd rfl hne
  | cons a0 rest =>
    obtain ⟨_, h2, h3⟩ := foldl_least (fun a => a.MinScanBlock) (a0 :: rest) a0.MinScanBlock
    refine ⟨_, rfl, ?_, h2⟩
    rcases h3 with h3 | h3
    · exact ⟨a0, List.mem_cons_self _ _, h3.symm⟩
    · exact h3

theorem findMax_spec (addrs : List Address) (hne : addrs ≠ []) :
    ∃ hi : Int64, findMax addrs = some (hi + 1) ∧
      (∃ a ∈ addrs, a.MaxScanBlock = hi) ∧ (∀ a ∈ addrs, a.MaxScanBlock ≤ hi) := by
  cases addrs with
  | nil => exact absurd rfl hne
  | cons a0 rest =>
    obtain ⟨_, h2, h3⟩ := foldl_greatest (fun a => a.MaxScanBlock) (a0 :: rest) a0.MaxScanBlock
    refine ⟨_, rfl, ?_, h2⟩
    rcases h3 with h3 | h3
    · exact ⟨a0, List.mem_cons_self _ _, h3.symm⟩
    · exact h3

theorem findMid_spec (addrs : List Address) (hne : addrs ≠ []) :
    ∃ hi : Int64, findMid addrs = some (hi + 1) ∧
      (∃ a ∈ addrs, a.MidScanBlock = hi) ∧ (∀ a ∈ addrs, a.MidScanBlock ≤ hi) := by
  cases addrs with
  | nil => exact absurd rfl hne
  | cons a0 rest =>
    obtain ⟨_, h2, h3⟩ := foldl_greatest (fun a => a.MidScanBlock) (a0 :: rest) a0.MidScanBlock
    refine ⟨_, rfl, ?_, h2⟩
    rcases h3 with h3 | h3
    · exact ⟨a0, List.mem_cons_self _ _, h3.symm⟩
    · exact h3

theorem updateAddress_min_advance (a : Address) (deps : List Deposit) (h : Inv a)
    (hle : a.MinScanBlock ≤ a.MaxScanBlock) :
    (updateAddress a deps (a.MinScanBlock + 1)).MinScanBlock = a.MinScanBlock + 1 := by
  have r1 := a.MinScanBlock.inRange
  have r2 := a.MidScanBlock.inRange
  have r3 := a.MaxScanBlock.inRange
  unfold Inv at h
  unfold updateAddress
  split_ifs with g1 g2 g3 g4 g5 <;>
    simp only [Bool.and_eq_true, decide_eq_true_eq, beq_iff_eq, gt_iff_lt, ge_iff_le,
      Int64.eq_iff, Int64.lt_iff, Int64.le_iff, Int64.val_sub, Int64.val_add, Int64.val_zero,
      Int64.val_one, Int64.val_minVal, wrap64, not_and, not_lt, and_self, or_true, true_or,
      le_refl, true_and, and_true] at * <;>
    (try omega)

theorem updateAddress_max_advance (a : Address) (deps : List Deposit) (h : Inv a)
    (hle : a.MinScanBlock ≤ a.MaxScanBlock) :
    (updateAddress a deps (a.MaxScanBlock + 1)).MaxScanBlock = a.MaxScanBlock + 1 := by
  have r1 := a.MinScanBlock.inRange
  have r2 := a.MidScanBlock.inRange
  have r3 := a.MaxScanBlock.inRange
  unfold Inv at h
  unfold updateAddress
  split_ifs with g1 g2 g3 g4 g5 <;>
    simp only [Bool.and_eq_true, decide_eq_true_eq, beq_iff_eq, gt_iff_lt, ge_iff_le,
      Int64.eq_iff, Int64.lt_iff, Int64.le_iff, Int64.val_sub, Int64.val_add, Int64.val_zero,
      Int64.val_one, Int64.val_minVal, wrap64, not_and, not_lt, and_self, or_true, true_or,
      le_refl, true_and, and_true] at * <;>
    (try omega)

theorem succ_val (x : Int64) (h : x ≠ Int64.maxVal) : (x + 1).val = x.val + 1 := by
  have r := x.inRange
  simp only [ne_eq, Int64.eq_iff, Int64.val_maxVal] at h
  simp only [Int64.val_add, Int64.val_one, wrap64]
  omega

theorem reachable_topped : Reachable topped :=
  ⟨[newAddr "a"], [([], Int64.maxVal)], newAddr_fresh "a", by decide⟩

theorem reachable_wrapped : Reachable wrapped :=
  ⟨[newAddr "a"], [([], Int64.maxVal), ([], Int64.minVal)], newAddr_fresh "a", by decide⟩

theorem reachable_lowRecord : Reachable lowRecord :=
  ⟨[newAddr "a"], [([], 50)], newAddr_fresh "a", by decide⟩

theorem reachable_highRecord : Reachable highRecord :=
  ⟨[newAddr "b"], [([], 100), ([], 1)], newAddr_fresh "b", by decide⟩

/-- C6, refuted as stated: the record (0, 2^63 - 1, 2^63 - 1) is reachable in
one step and `findMax` of it is `-2^63`, not its `MaxScanBlock` plus one; and
the reachable record (0, 2^63 - 1, -2^63) holds the least `MinScanBlock` 0 of
its list, `findMin` is 1, and `updateAddressInfo` at the height 1 leaves its
`MinScanBlock` at 0. -/
theorem findMax_wraps_at_top :
    (∀ a ∈ [topped], Reachable a) ∧
    findMax [topped] = some Int64.minVal ∧
    Int64.minVal.val ≠ topped.MaxScanBlock.val + 1 ∧
    (∀ a ∈ [wrapped], Reachable a) ∧
    findMin [wrapped] = some 1 ∧
    updateAddressInfo [wrapped] [] 1 = [wrapped] ∧
    wrapped.MinScanBlock ≠ 1 := by
  refine ⟨?_, by decide, by decide, ?_, by decide, by decide, by decide⟩
  · intro a ha
    rw [List.mem_singleton.mp ha]
    exact reachable_topped
  · intro a ha
    rw [List.mem_singleton.mp ha]
    exact reachable_wrapped

/-- C6, amended: on a non-empty list of reachable records `findMin` is the
least `MinScanBlock` plus one and `findMax` the greatest `MaxScanBlock` plus
one in `int64` arithmetic, which is the integer plus one unless that watermark
is `2^63 - 1`; every record has `MinScanBlock <= MaxScanBlock` unless its
`MaxScanBlock` is `-2^63`; `updateAddressInfo` at the height `findMin` moves
every record with `MinScanBlock <= MaxScanBlock` that held the least
`MinScanBlock` to `MinScanBlock = findMin`, and at the height `findMax` it
moves every record with `MinScanBlock <= MaxScanBlock` that held the greatest
`MaxScanBlock` to `MaxScanBlock = findMax`. -/
theorem findMin_findMax_advance (addrs : List Address) (deps : List Deposit)
    (hne : addrs ≠ []) (hreach : ∀ a ∈ addrs, Reachable a) :
    ∃ lo hi : Int64,
      (∃ a ∈ addrs, a.MinScanBlock = lo) ∧ (∀ a ∈ addrs, lo ≤ a.MinScanBlock) ∧
      (∃ a ∈ addrs, a.MaxScanBlock = hi) ∧ (∀ a ∈ addrs, a.MaxScanBlock ≤ hi) ∧
      findMin addrs = some (lo + 1) ∧ findMax addrs = some (hi + 1) ∧
      (lo ≠ Int64.maxVal → (lo + 1).val = lo.val + 1) ∧
      (hi ≠ Int64.maxVal → (hi + 1).val = hi.val + 1) ∧
      (∀ a ∈ addrs, a.MaxScanBlock ≠ Int64.minVal → a.MinScanBlock ≤ a.MaxScanBlock) ∧
      (∀ (i : Nat) (a : Address), addrs[i]? = some a → a.MinScanBlock = lo →
        a.MinScanBlock ≤ a.MaxScanBlock →
        ∃ a2 : Address, (updateAddressInfo addrs deps (lo + 1))[i]? = some a2 ∧
          a2.MinScanBlock = lo + 1) ∧
      (∀ (i : Nat) (a : Address), addrs[i]? = some a → a.MaxScanBlock = hi →
        a.MinScanBlock ≤ a.MaxScanBlock →
        ∃ a2 : Address, (updateAddressInfo addrs deps (hi + 1))[i]? = some a2 ∧
          a2.MaxScanBlock = hi + 1) := by
  obtain ⟨lo, hmin, hlo1, hlo2⟩ := findMin_spec addrs hne
  obtain ⟨hi, hmax, hhi1, hhi2⟩ := findMax_spec addrs hne
  refine ⟨lo, hi, hlo1, hlo2, hhi1, hhi2, hmin, hmax, succ_val lo, succ_val hi, ?_, ?_, ?_⟩
  · intro a ha hmx
    rcases inv_min_le_max a (reachable_inv a (hreach a ha)) with h | h
    · exact h
    · exact absurd h hmx
  · intro i a hi2 ha hle
    have hinv := reachable_inv a (hreach a (List.getElem?_mem hi2))
    refine ⟨updateAddress a deps (lo + 1), by simp [updateAddressInfo, hi2], ?_⟩
    rw [← ha]
    exact updateAddress_min_advance a deps hinv hle
  · intro i a hi2 ha hle
    have hinv := reachable_inv a (hreach a (List.getElem?_mem hi2))
    refine ⟨updateAddress a deps (hi + 1), by simp [updateAddressInfo, hi2], ?_⟩
    rw [← ha]
    exact updateAddress_max_advance a deps hinv hle


theorem succ_inj (x y : Int64) (h : x + 1 = y + 1) : x = y := by
  have r1 := x.inRange
  have r2 := y.inRange
  simp only [Int64.eq_iff, Int64.val_add, Int64.val_one, wrap64] at *
  omega

/-- Witness of C6 amended: in the list of the reachable records (1, 100, 100)
and (0, 50, 50) the least `MinScanBlock` is that of the second record and the
greatest `MaxScanBlock` that of the first; `findMin` is 1 and moves the second
record to `MinScanBlock = 1`, `findMax` is 101 and moves the first record to
`MaxScanBlock = 101`. -/
theorem findMin_findMax_advance_witness :
    [highRecord, lowRecord] ≠ [] ∧ (∀ a ∈ [highRecord, lowRecord], Reachable a) ∧
    findMin [highRecord, lowRecord] = some 1 ∧
    findMax [highRecord, lowRecord] = some 101 ∧
    (∃ a2 : Address, (updateAddressInfo [highRecord, lowRecord] [] 1)[1]? = some a2 ∧
      a2.MinScanBlock = 1) ∧
    (∃ a2 : Address, (updateAddressInfo [highRecord, lowRecord] [] 101)[0]? = some a2 ∧
      a2.MaxScanBlock = 101) := by
  have hreach : ∀ a ∈ [highRecord, lowRecord], Reachable a := by
    intro a ha
    simp only [List.mem_cons, List.mem_singleton, List.mem_nil_iff, or_false] at ha
    rcases ha with rfl | rfl
    · exact reachable_highRecord
    · exact reachable_lowRecord
  obtain ⟨lo, hi, _, _, _, _, hmin, hmax, _, _, _, hadvMin, hadvMax⟩ :=
    findMin_findMax_advance [highRecord, lowRecord] [] (by simp) hreach
  have e0 : findMin [highRecord, lowRecord] = some ((0 : Int64) + 1) := by decide
  have e100 : findMax [highRecord, lowRecord] = some ((100 : Int64) + 1) := by decide
  have elo : lo = 0 := succ_inj lo 0 (Option.some.inj (hmin.symm.trans e0))
  have ehi : hi = 100 := succ_inj hi 100 (Option.some.inj (hmax.symm.trans e100))
  subst elo
  subst ehi
  have e1 : (0 : Int64) + 1 = 1 := by decide
  have e101 : (100 : Int64) + 1 = 101 := by decide
  rw [e1] at hadvMin hmin
  rw [e101] at hadvMax hmax
  exact ⟨by simp, hreach, hmin, hmax,
    hadvMin 1 lowRecord rfl (by decide) (by decide),
    hadvMax 0 highRecord rfl (by decide) (by decide)⟩

theorem findShortFirst_spec (s0 : Int64) (l : List Address) :
    (findShortFirst s0 l = (0, s0) ∧ ∀ a ∈ l, ¬ a.MidScanBlock - a.MinScanBlock > 0) ∨
    (∃ (pre : List Address) (f : Address) (post : List Address),
      l = pre ++ f :: post ∧ (∀ x ∈ pre, ¬ x.MidScanBlock - x.MinScanBlock > 0) ∧
      f.MidScanBlock - f.MinScanBlock > 0 ∧
      findShortFirst s0 l = (f.MidScanBlock - f.MinScanBlock, f.MinScanBlock)) := by
  induction l with
  | nil => exact Or.inl ⟨rfl, by simp⟩
  | cons x xs ih =>
    by_cases hx : x.MidScanBlock - x.MinScanBlock > 0
    · refine Or.inr ⟨[], x, xs, rfl, by simp, hx, ?_⟩
      simp [findShortFirst, hx]
    · have e : findShortFirst s0 (x :: xs) = findShortFirst s0 xs := by
        simp [findShortFirst, hx]
      rcases ih with ⟨h1, h2⟩ | ⟨pre, f, post, h1, h2, h3, h4⟩
      · refine Or.inl ⟨by rw [e, h1], ?_⟩
        intro a ha
        rcases List.mem_cons.mp ha with rfl | ha
        · exact hx
        · exact h2 a ha
      · refine Or.inr ⟨x :: pre, f, post, by rw [h1]; rfl, ?_, h3, by rw [e, h4]⟩
        intro y hy
        rcases List.mem_cons.mp hy with rfl | hy
        · exact hx
        · exact h2 y hy

theorem findShortStep_take (d s : Int64) (x : Address)
    (hx : x.MidScanBlock - x.MinScanBlock < d ∧ x.MidScanBlock - x.MinScanBlock ≠ 0) :
    findShortStep (d, s) x = (x.MidScanBlock - x.MinScanBlock, x.MinScanBlock) := by
  unfold findShortStep
  have : (decide (x.MidScanBlock - x.MinScanBlock < d)
      && x.MidScanBlock - x.MinScanBlock != 0) = true := by
    simpa using hx
  simp only [this]
  rfl

theorem findShortStep_skip (d s : Int64) (x : Address)
    (hx : ¬ (x.MidScanBlock - x.MinScanBlock < d ∧ x.MidScanBlock - x.MinScanBlock ≠ 0)) :
    findShortStep (d, s) x = (d, s) := by
  unfold findShortStep
  have : (decide (x.MidScanBlock - x.MinScanBlock < d)
      && x.MidScanBlock - x.MinScanBlock != 0) = false := by
    rw [Bool.eq_false_iff]
    intro hg
    apply hx
    simpa using hg
  simp only [this]
  rfl

theorem findShort_second_loop (l : List Address) (d s : Int64) :
    (l.foldl findShortStep (d, s) = (d, s) ∧
      ∀ a ∈ l, a.MidScanBlock - a.MinScanBlock ≠ 0 → d ≤ a.MidScanBlock - a.MinScanBlock) ∨
    (∃ (pre : List Address) (a : Address) (post : List Address),
      l = pre ++ a :: post ∧
      l.foldl findShortStep (d, s) = (a.MidScanBlock - a.MinScanBlock, a.MinScanBlock) ∧
      a.MidScanBlock - a.MinScanBlock ≠ 0 ∧ a.MidScanBlock - a.MinScanBlock < d ∧
      (∀ x ∈ l, x.MidScanBlock - x.MinScanBlock ≠ 0 →
        a.MidScanBlock - a.MinScanBlock ≤ x.MidScanBlock - x.MinScanBlock) ∧
      (∀ x ∈ pre, x.MidScanBlock - x.MinScanBlock ≠ a.MidScanBlock - a.MinScanBlock)) := by
  induction l generalizing d s with
  | nil => exact Or.inl ⟨rfl, by simp⟩
  | cons x xs ih =>
    simp only [List.foldl_cons]
    by_cases hx : x.MidScanBlock - x.MinScanBlock < d ∧ x.MidScanBlock - x.MinScanBlock ≠ 0
    · rw [findShortStep_take d s x hx]
      rcases ih (x.MidScanBlock - x.MinScanBlock) x.MinScanBlock with
        ⟨h1, h2⟩ | ⟨pre, a, post, h1, h2, h3, h4, h5, h6⟩
      · refine Or.inr ⟨[], x, xs, rfl, h1, hx.2, hx.1, ?_, by simp⟩
        intro y hy hyp
        rcases List.mem_cons.mp hy with rfl | hy
        · exact Int.le_refl _
        · exact h2 y hy hyp
      · refine Or.inr ⟨x :: pre, a, post, by rw [h1]; rfl, h2, h3, ?_, ?_, ?_⟩
        · have := hx.1
          simp only [Int64.lt_iff] at this h4 ⊢
          omega
        · intro y hy hyp
          rcases List.mem_cons.mp hy with rfl | hy
          · simp only [Int64.lt_iff, Int64.le_iff] at h4 ⊢
            omega
          · exact h5 y hy hyp
        · intro y hy
          rcases List.mem_cons.mp hy with rfl | hy
          · intro he
            rw [he] at h4
            simp only [Int64.lt_iff] at h4
            omega
          · exact h6 y hy
    · rw [findShortStep_skip d s x hx]
      have hx2 : x.MidScanBlock - x.MinScanBlock = 0 ∨ d ≤ x.MidScanBlock - x.MinScanBlock := by
        by_cases h0 : x.MidScanBlock - x.MinScanBlock = 0
        · exact Or.inl h0
        · right
          by_contra hlt
          apply hx
          refine ⟨?_, h0⟩
          simp only [Int64.lt_iff, Int64.le_iff] at hlt ⊢
          omega
      rcases ih d s with ⟨h1, h2⟩ | ⟨pre, a, post, h1, h2, h3, h4, h5, h6⟩
      · refine Or.inl ⟨h1, ?_⟩
        intro y hy hyp
        rcases List.mem_cons.mp hy with rfl | hy
        · rcases hx2 with h0 | h0
          · exact absurd h0 hyp
          · exact h0
        · exact h2 y hy hyp
      · refine Or.inr ⟨x :: pre, a, post, by rw [h1]; rfl, h2, h3, h4, ?_, ?_⟩
        · intro y hy hyp
          rcases List.mem_cons.mp hy with rfl | hy
          · rcases hx2 with h0 | h0
            · exact absurd h0 hyp
            · simp only [Int64.lt_iff, Int64.le_iff] at h0 h4 ⊢
              omega
          · exact h5 y hy hyp
        · intro y hy
          rcases List.mem_cons.mp hy with rfl | hy
          · intro he
            rcases hx2 with h0 | h0
            · exact h3 (he ▸ h0)
            · rw [he] at h0
              simp only [Int64.lt_iff, Int64.le_iff] at h0 h4
              omega
          · exact h6 y hy

theorem findShort_nonzero (addrs : List Address) (hne : addrs ≠ []) :
    ∃ m : Int64, ShortChoiceNonzero addrs m ∧ findShort addrs = some (m + 1) := by
  cases addrs with
  | nil => exact absurd rfl hne
  | cons a0 rest =>
    simp only [findShort]
    rcases findShortFirst_spec a0.MinScanBlock (a0 :: rest) with
      ⟨h1, h2⟩ | ⟨pre, f, post, h1, h2, h3, h4⟩
    · rw [h1]
      rcases findShort_second_loop (a0 :: rest) 0 a0.MinScanBlock with
        ⟨k1, k2⟩ | ⟨pre2, a, post2, k1, k2, k3, k4, k5, k6⟩
      · rw [k1]
        refine ⟨a0.MinScanBlock, ⟨?_, ?_⟩, rfl⟩
        · rintro ⟨a, ha, hp⟩
          exfalso
          have hk := k2 a ha hp
          have hn := h2 a ha
          have r := (a.MidScanBlock - a.MinScanBlock).inRange
          simp only [Int64.lt_iff, Int64.le_iff, Int64.eq_iff, ne_eq, gt_iff_lt,
            Int64.val_zero] at hk hn hp
          omega
        · intro _
          exact ⟨a0, rest, rfl, rfl⟩
      · rw [k2]
        refine ⟨a.MinScanBlock, ⟨?_, ?_⟩, rfl⟩
        · intro _
          exact ⟨pre2, a, post2, k1, rfl, k3, k5, k6⟩
        · intro hno
          exact absurd ⟨a, by rw [k1]; simp, k3⟩ hno
    · rw [h4]
      have hf0 : f.MidScanBlock - f.MinScanBlock ≠ 0 := by
        intro he
        rw [he] at h3
        revert h3
        decide
      rcases findShort_second_loop (a0 :: rest) (f.MidScanBlock - f.MinScanBlock)
          f.MinScanBlock with
        ⟨k1, k2⟩ | ⟨pre2, a, post2, k1, k2, k3, k4, k5, k6⟩
      · rw [k1]
        refine ⟨f.MinScanBlock, ⟨?_, ?_⟩, rfl⟩
        · intro _
          refine ⟨pre, f, post, h1, rfl, hf0, k2, ?_⟩
          intro x hx he
          have hn := h2 x hx
          rw [he] at hn
          exact hn h3
        · intro hno
          exact absurd ⟨f, by rw [h1]; simp, hf0⟩ hno
      · rw [k2]
        refine ⟨a.MinScanBlock, ⟨?_, ?_⟩, rfl⟩
        · intro _
          exact ⟨pre2, a, post2, k1, rfl, k3, k5, k6⟩
        · intro hno
          exact absurd ⟨f, by rw [h1]; simp, hf0⟩ hno


theorem gap_val (a : Address)
    (h : a.MinScanBlock ≤ a.MidScanBlock
      ∧ a.MidScanBlock.val - a.MinScanBlock.val ≤ 9223372036854775807) :
    (a.MidScanBlock - a.MinScanBlock).val = a.MidScanBlock.val - a.MinScanBlock.val := by
  have r1 := a.MinScanBlock.inRange
  have r2 := a.MidScanBlock.inRange
  simp only [Int64.le_iff] at h
  simp only [Int64.val_sub, wrap64]
  omega

theorem shortChoice_of_nonzero (addrs : List Address) (m : Int64)
    (hgap : ∀ a ∈ addrs, a.MinScanBlock ≤ a.MidScanBlock
      ∧ a.MidScanBlock.val - a.MinScanBlock.val ≤ 9223372036854775807)
    (h : ShortChoiceNonzero addrs m) : ShortChoice addrs m := by
  have hpos : ∀ a ∈ addrs, (a.MidScanBlock - a.MinScanBlock ≠ 0 ↔
      a.MidScanBlock.val - a.MinScanBlock.val > 0) := by
    intro a ha
    have e := gap_val a (hgap a ha)
    have hl := (hgap a ha).1
    simp only [Int64.le_iff] at hl
    simp only [ne_eq, Int64.eq_iff, Int64.val_zero, e]
    omega
  obtain ⟨h1, h2⟩ := h
  constructor
  · rintro ⟨a, ha, hp⟩
    obtain ⟨pre, f, post, hL, hm, hf, hmin, hfirst⟩ := h1 ⟨a, ha, (hpos a ha).mpr hp⟩
    have hfmem : f ∈ addrs := by rw [hL]; simp
    refine ⟨pre, f, post, hL, hm, (hpos f hfmem).mp hf, ?_, ?_⟩
    · intro x hx hxp
      have := hmin x hx ((hpos x hx).mpr hxp)
      rw [Int64.le_iff, gap_val f (hgap f hfmem), gap_val x (hgap x hx)] at this
      exact this
    · intro x hx he
      have hxmem : x ∈ addrs := by rw [hL]; exact List.mem_append_left _ hx
      apply hfirst x hx
      rw [Int64.eq_iff, gap_val f (hgap f hfmem), gap_val x (hgap x hxmem)]
      exact he
  · intro hno
    apply h2
    rintro ⟨a, ha, hp⟩
    exact hno ⟨a, ha, (hpos a ha).mp hp⟩

/-- C3, refuted as stated: in the list A = (min 0, mid 5), B = (min 10, mid 3)
the only positive gap is that of A, yet `findShort` returns 11, the
`MinScanBlock` of B plus one. -/
theorem findShort_takes_negative_gap :
    ¬ ∃ m : Int64, ShortChoice [gapFive, gapNegative] m ∧
        findShort [gapFive, gapNegative] = some (m + 1) := by
  rintro ⟨m, ⟨h1, _⟩, hf⟩
  have h11 : findShort [gapFive, gapNegative] = some ((10 : Int64) + 1) := by decide
  have hm : m = 10 := succ_inj m 10 (Option.some.inj (hf.symm.trans h11))
  obtain ⟨pre, a, post, hL, ha, hpos, _, _⟩ := h1 ⟨gapFive, by simp, by decide⟩
  rw [hm] at ha
  match pre, hL with
  | [], hL =>
    simp only [List.nil_append, List.cons.injEq] at hL
    rw [← hL.1] at ha
    exact absurd ha (by decide)
  | [p], hL =>
    simp only [List.cons_append, List.nil_append, List.cons.injEq] at hL
    rw [← hL.2.1] at hpos
    exact absurd hpos (by decide)
  | p :: q :: r, hL =>
    simp at hL

/-- C3, amended: on every non-empty list `findShort` returns `m + 1` (in
`int64` arithmetic) where, if some address has a gap
`MidScanBlock - MinScanBlock` other than 0, `m` is the `MinScanBlock` of the
first address in list order whose gap equals the least gap other than 0 of the
list, and otherwise `m` is the `MinScanBlock` of the first address; the gap is
the `int64` difference. On a list whose records all have
`0 <= MidScanBlock - MinScanBlock < 2^63` as integers, this is the choice of
the specification: the least positive gap, the first address among equal gaps,
the first address of the list when no gap is positive. -/
theorem findShort_spec (addrs : List Address) (hne : addrs ≠ []) :
    (∃ m : Int64, ShortChoiceNonzero addrs m ∧ findShort addrs = some (m + 1)) ∧
    ((∀ a ∈ addrs, a.MinScanBlock ≤ a.MidScanBlock
        ∧ a.MidScanBlock.val - a.MinScanBlock.val ≤ 9223372036854775807) →
      ∃ m : Int64, ShortChoice addrs m ∧ findShort addrs = some (m + 1)) := by
  obtain ⟨m, hm, hf⟩ := findShort_nonzero addrs hne
  exact ⟨⟨m, hm, hf⟩, fun hgap => ⟨m, shortChoice_of_nonzero addrs m hgap hm, hf⟩⟩

/-- Witness of C3 amended: of the two records (min 4, mid 7) and (min 6, mid 9)
with the gap 3 the first is chosen, `findShort` returns 5. -/
theorem findShort_spec_witness :
    [gapThreeA, gapThreeB] ≠ [] ∧
    (∀ a ∈ [gapThreeA, gapThreeB], a.MinScanBlock ≤ a.MidScanBlock
        ∧ a.MidScanBlock.val - a.MinScanBlock.val ≤ 9223372036854775807) ∧
    (∃ m : Int64, ShortChoice [gapThreeA, gapThreeB] m ∧
      findShort [gapThreeA, gapThreeB] = some (m + 1)) ∧
    findShort [gapThreeA, gapThreeB] = some 5 :=
  ⟨by simp, by decide,
   (findShort_spec [gapThreeA, gapThreeB] (by simp)).2 (by decide), by decide⟩


/-! ## Claims about the range scan -/

theorem blocksFrom_last (n : Int64) (count : Nat) :
    blocksFrom n (count + 1) = blocksFrom n count ++ [Int64.ofInt (n.val + (count : Int))] := by
  induction count generalizing n with
  | zero =>
    simp only [blocksFrom, List.nil_append, Nat.cast_zero, add_zero, Int64.ofInt_val]
  | succ c ih =>
    have e : blocksFrom n (c + 1 + 1) = n :: blocksFrom (n + 1) (c + 1) := rfl
    rw [e, ih (n + 1)]
    have e2 : blocksFrom n (c + 1) = n :: blocksFrom (n + 1) c := rfl
    rw [e2]
    have e3 : Int64.ofInt ((n + 1).val + (c : Int)) = Int64.ofInt (n.val + ((c + 1 : Nat) : Int)) := by
      have r := n.inRange
      simp only [Int64.eq_iff, Int64.val_ofInt, Int64.val_add, Int64.val_one, wrap64,
        Nat.cast_add, Nat.cast_one]
      omega
    rw [e3]
    rfl

theorem scanLoop_ok {ε : Type} (reader : Int64 → Except ε (List Deposit)) (m i : Int64)
    (fuel : Nat) (s : LoopState) (deposits : List Deposit) (hi : i ≤ m)
    (hr : reader i = .ok deposits) :
    scanLoop reader m (fuel + 1) i s
    = scanLoop reader m fuel (i + 1)
        { addrs := updateAddressInfo s.addrs deposits i, reads := s.reads ++ [i] } := by
  simp only [scanLoop, hi, if_true, hr]

theorem scanLoop_error {ε : Type} (reader : Int64 → Except ε (List Deposit)) (m i : Int64)
    (fuel : Nat) (s : LoopState) (err : ε) (hi : i ≤ m) (hr : reader i = .error err) :
    scanLoop reader m (fuel + 1) i s = some ({ s with reads := s.reads ++ [i] }, some err) := by
  simp only [scanLoop, hi, if_true, hr]

theorem scanLoop_done {ε : Type} (reader : Int64 → Except ε (List Deposit)) (m i : Int64)
    (fuel : Nat) (s : LoopState) (hi : ¬ i ≤ m) :
    scanLoop reader m (fuel + 1) i s = some (s, none) := by
  simp only [scanLoop, hi, if_false]

theorem scanLoop_ok_run {ε : Type} (reader : Int64 → Except ε (List Deposit))
    (d : Int64 → List Deposit) (m : Int64) (count fuel : Nat) (i : Int64) (s : LoopState)
    (hok : ∀ j : Int64, i.val ≤ j.val → j.val < i.val + (count : Int) → reader j = .ok (d j))
    (hle : i.val + (count : Int) ≤ m.val + 1) :
    scanLoop reader m (count + fuel) i s
    = scanLoop reader m fuel (Int64.ofInt (i.val + (count : Int)))
        { addrs := (blocksFrom i count).foldl (fun a j => updateAddressInfo a (d j) j) s.addrs,
          reads := s.reads ++ blocksFrom i count } := by
  induction count generalizing i s with
  | zero =>
    simp only [Nat.zero_add, Nat.cast_zero, add_zero, Int64.ofInt_val, blocksFrom,
      List.foldl_nil, List.append_nil]
  | succ c ih =>
    have ri := i.inRange
    have rm := m.inRange
    have hc : ((c + 1 : Nat) : Int) = (c : Int) + 1 := by simp
    rw [hc] at hok hle
    have e : c + 1 + fuel = (c + fuel) + 1 := by omega
    have him : i ≤ m := by
      rw [Int64.le_iff]
      omega
    rw [e, scanLoop_ok reader m i (c + fuel) s (d i) him (hok i (le_refl _) (by omega))]
    have hnext : (i + 1).val = wrap64 (i.val + 1) := rfl
    rw [ih (i + 1) _
      (fun j h1 h2 => hok j (by rw [hnext] at h1 h2; unfold wrap64 at h1 h2; omega)
        (by rw [hnext] at h1 h2; unfold wrap64 at h1 h2; omega))
      (by rw [hnext]; unfold wrap64; omega)]
    have e3 : Int64.ofInt ((i + 1).val + (c : Int)) = Int64.ofInt (i.val + ((c : Int) + 1)) := by
      simp only [Int64.eq_iff, Int64.val_ofInt, Int64.val_add, Int64.val_one, wrap64]
      omega
    have e4 : blocksFrom i (c + 1) = i :: blocksFrom (i + 1) c := rfl
    rw [e3, e4, hc]
    simp only [List.foldl_cons, List.append_assoc, List.singleton_append]

theorem scanLoop_never_returns (fuel : Nat) (i : Int64) (s : LoopState) :
    scanLoop emptyReader Int64.maxVal fuel i s = none := by
  induction fuel generalizing i s with
  | zero => rfl
  | succ f ih =>
    have hi : i ≤ Int64.maxVal := i.inRange.2
    rw [scanLoop_ok emptyReader Int64.maxVal i f s [] hi rfl]
    exact ih _ _

/-- C7, refuted as stated: for the range `n = m = 2^63 - 1` and a reader that
never fails, the loop counter wraps to `-2^63` after block `m` and the loop
never returns, whatever the fuel; and with a reader that fails on block
`-2^63` only, so on no block of the range, the scan reads block `-2^63` after
block `m` and returns its error. -/
theorem scanRange_past_top :
    (∀ j : Int64, emptyReader j = .ok []) ∧
    (∀ fuel : Nat,
      scanRange emptyReader [newAddr "a"] Int64.maxVal Int64.maxVal fuel = none) ∧
    (∀ j : Int64, Int64.maxVal ≤ j → j ≤ Int64.maxVal → failAtMin j = .ok []) ∧
    scanRange failAtMin [newAddr "a"] Int64.maxVal Int64.maxVal 3
      = some ({ addrs := [topped], reads := [Int64.maxVal, Int64.minVal] },
          some "negative height") := by
  refine ⟨fun _ => rfl, fun fuel => scanLoop_never_returns fuel _ _, ?_, by decide⟩
  intro j h1 _
  have e : j = Int64.maxVal := by
    have r := j.inRange
    simp only [Int64.le_iff, Int64.eq_iff, Int64.val_maxVal] at *
    omega
  rw [e]
  rfl

/-- C7, amended: the range scan over `n <= m` stops at the first block `k` of
the range that the reader fails on: given enough fuel it returns the reader's
error, the address list is then the left fold of `updateAddressInfo` over the
blocks `n`, ..., `k - 1` in ascending order, and the blocks read are exactly
`n`, ..., `k`. When the reader fails on no block of the range and `m` is not
`2^63 - 1`, the scan returns, given enough fuel, the fold over `n`, ..., `m`
and no error, having read exactly these blocks. -/
theorem scanRange_stops_at_first_failure {ε : Type}
    (reader : Int64 → Except ε (List Deposit)) (d : Int64 → List Deposit)
    (addrs : List Address) (n m : Int64) (hnm : n ≤ m) :
    (∀ (k : Int64) (err : ε), n ≤ k → k ≤ m →
      (∀ j : Int64, n ≤ j → j < k → reader j = .ok (d j)) → reader k = .error err →
      ∀ fuel : Nat, (k.val - n.val).toNat < fuel →
      scanRange reader addrs n m fuel
      = some ({ addrs := (blocksFrom n (k.val - n.val).toNat).foldl
                      (fun a j => updateAddressInfo a (d j) j) addrs,
                reads := blocksFrom n ((k.val - n.val).toNat + 1) }, some err)) ∧
    (m ≠ Int64.maxVal → (∀ j : Int64, n ≤ j → j ≤ m → reader j = .ok (d j)) →
      ∀ fuel : Nat, (m.val - n.val).toNat + 1 < fuel →
      scanRange reader addrs n m fuel
      = some ({ addrs := (blocksFrom n ((m.val - n.val).toNat + 1)).foldl
                      (fun a j => updateAddressInfo a (d j) j) addrs,
                reads := blocksFrom n ((m.val - n.val).toNat + 1) }, none)) := by
  have rn := n.inRange
  have rm := m.inRange
  rw [Int64.le_iff] at hnm
  constructor
  · intro k err hnk hkm hok herr fuel hfuel
    have hnk2 := hnk
    have hkm2 := hkm
    rw [Int64.le_iff] at hnk2 hkm2
    unfold scanRange
    have hcast : (((k.val - n.val).toNat : Nat) : Int) = k.val - n.val :=
      Int.toNat_of_nonneg (by omega)
    obtain ⟨f, hf⟩ : ∃ f : Nat, fuel = (k.val - n.val).toNat + (f + 1) :=
      ⟨fuel - (k.val - n.val).toNat - 1, by omega⟩
    rw [hf, scanLoop_ok_run reader d m (k.val - n.val).toNat (f + 1) n _
      (fun j h1 h2 => hok j h1 (by rw [Int64.lt_iff]; omega)) (by omega)]
    have hk : Int64.ofInt (n.val + (((k.val - n.val).toNat : Nat) : Int)) = k := by
      rw [hcast]
      have : n.val + (k.val - n.val) = k.val := by omega
      rw [this, Int64.ofInt_val]
    rw [hk, scanLoop_error reader m k f _ err hkm herr, blocksFrom_last, hk]
    simp
  · intro hmax hok fuel hfuel
    unfold scanRange
    have hcast : (((m.val - n.val).toNat + 1 : Nat) : Int) = m.val - n.val + 1 := by
      rw [Nat.cast_add, Int.toNat_of_nonneg (by omega)]
      rfl
    obtain ⟨f, hf⟩ : ∃ f : Nat, fuel = ((m.val - n.val).toNat + 1) + (f + 1) :=
      ⟨fuel - ((m.val - n.val).toNat + 1) - 1, by omega⟩
    rw [hf, scanLoop_ok_run reader d m ((m.val - n.val).toNat + 1) (f + 1) n _
      (fun j h1 h2 => hok j h1 (by rw [Int64.le_iff]; omega)) (by omega)]
    have hpast : ¬ Int64.ofInt (n.val + (((m.val - n.val).toNat + 1 : Nat) : Int)) ≤ m := by
      rw [hcast, Int64.le_iff, Int64.val_ofInt]
      simp only [ne_eq, Int64.eq_iff, Int64.val_maxVal] at hmax
      unfold wrap64
      omega
    rw [scanLoop_done reader m _ f _ hpast]
    simp

/-- Witness of C7 amended: the range [10, 12] with block 11 failing returns the
error of block 11 with the update of block 10 only, blocks 10 and 11 read;
and the same range with a reader that never fails returns the fold over the
blocks 10, 11, 12. -/
theorem scanRange_stops_at_first_failure_witness :
    scanRange sampleReader [newAddr "a"] 10 12 5
      = some ({ addrs := [{ Addr := "a", MinScanBlock := 0, MidScanBlock := 10,
                            MaxScanBlock := 10, Txs := [sampleTx10] }],
                reads := [10, 11] }, some "block 11 not found") ∧
    scanRange emptyReader [newAddr "a"] 10 12 5
      = some ({ addrs := [{ Addr := "a", MinScanBlock := 0, MidScanBlock := 10,
                            MaxScanBlock := 12, Txs := [] }],
                reads := [10, 11, 12] }, none) := by
  constructor
  · have h := (scanRange_stops_at_first_failure sampleReader sampleBatch [newAddr "a"] 10 12
      (by decide)).1 11 "block 11 not found" (by decide) (by decide)
      (fun j h1 h2 => by
        have hj : j = 10 := by
          have r := j.inRange
          have e10 : (10 : Int64).val = 10 := rfl
          have e11 : (11 : Int64).val = 11 := rfl
          simp only [Int64.le_iff, Int64.lt_iff, Int64.eq_iff, e10, e11] at *
          omega
        rw [hj]
        rfl)
      rfl 5 (by decide)
    rw [h]
    decide
  · have h := (scanRange_stops_at_first_failure emptyReader noBatch [newAddr "a"] 10 12
      (by decide)).2 (by decide) (fun j _ _ => rfl) 5 (by decide)
    rw [h]
    decide


end Scan
